import Mathlib

/-!
Shallow embedding of the fissa repository (files fissa/neuropil.py and
fissa/extraction.py), together with proofs checking the natural-language
specification against it.

Matrices of traces are embedded as lists of rows over the rationals; the
row/column conventions of each Python array are recorded at each definition.
The iterative factorization routines (sklearn FastICA and NMF, nimfa Nmf)
are external library collaborators: their outputs (the separated component
matrix and the mixing matrix) and their per-attempt iteration counts enter
the embedding as explicit arguments, and everything the repository itself
computes from them is embedded from the source.
-/

namespace Fissa

/-- Mean of a list of rationals, as np.mean: sum divided by length
(with the Lean convention that division by zero yields zero, which is only
exercised on empty inputs that numpy would reject). -/
def listMean (l : List ℚ) : ℚ := l.sum / l.length

/-- The closed enum of separation methods accepted by fissa.neuropil.separate. -/
inductive SepMethod
  | ica
  | nmf
  | nmf_sklearn
deriving DecidableEq

/-- Entry M[i, j] of a row-major list-of-lists matrix, defaulting to 0 out of
range (in-range behaviour is all the proofs use). -/
def entry (M : List (List ℚ)) (i j : ℕ) : ℚ := (M.getD i []).getD j 0

/-- Sum of the absolute values of column j of A: the quantity np.sum(A[:, j])
computed by separate after A = abs(np.copy(A_sep)). A is row-major with one
row per region. -/
def colAbsSum (A : List (List ℚ)) (j : ℕ) : ℚ :=
  (A.map (fun row => |row.getD j 0|)).sum

/-- Entry (i, j) of the normalized score matrix built by separate from the
mixing matrix A_sep: absolute value, then each column divided by its sum
unless that sum is zero (source lines 212-215 of neuropil.py). -/
def normEntry (A : List (List ℚ)) (i j : ℕ) : ℚ :=
  if colAbsSum A j ≠ 0 then |entry A i j| / colAbsSum A j else |entry A i j|

/-- Scores of the somatic (primary) signal: row 0 of the normalized matrix,
the quantity scores = A[0, :] in separate. -/
def scores (A : List (List ℚ)) : ℕ → ℚ := fun j => normEntry A 0 j

/-- Embedding of order = np.argsort(scores)[::-1] over component indices
0..k-1: indices sorted ascending by score, then reversed, so the result
lists component indices by descending score. np.argsort with the default
quicksort leaves the relative order of tied scores unspecified; the
embedding fixes the stable choice, and no proof below depends on ties. -/
def argsortDesc (s : ℕ → ℚ) (k : ℕ) : List ℕ :=
  (List.insertionSort (fun i j => s i ≤ s j) (List.range k)).reverse

/-- The component ordering used by separate: argsort of the primary scores,
descending. -/
def order (A : List (List ℚ)) (k : ℕ) : List ℕ := argsortDesc (scores A) k

/-- Column j of S_matched as built by the loop at lines 224-231 of
neuropil.py. S is the input trace matrix, row-major with one row per region
(row 0 primary, as produced by extracttraces), so S[0, :] is the head row.
Ssep is the separated component matrix stored column-major: its c-th entry
is the component S_sep[:, c] over time (equivalently, row c of the returned
S_sep.T). A is the raw mixing matrix A_sep, row-major with one row per
region. The weighted component is A_sep[0, order[j]] * S_sep[:, order[j]];
for ica the primary-row raw mean is added directly, for both nmf variants
the mean of the column is first removed. -/
def matchedCol (m : SepMethod) (S Ssep A : List (List ℚ)) (k j : ℕ) : List ℚ :=
  let c := (order A k).getD j 0
  let s_ := (Ssep.getD c []).map (fun x => entry A 0 c * x)
  match m with
  | .ica => s_.map (fun x => x + listMean S.headI)
  | .nmf => s_.map (fun x => x + (listMean S.headI - listMean s_))
  | .nmf_sklearn => s_.map (fun x => x + (listMean S.headI - listMean s_))

/-- The full S_matched matrix, stored column-major like Ssep (so it is also
the returned S_matched.T, whose j-th row is the j-th matched trace); the
loop fills exactly the columns j < n_components, and n_components equals
the number of columns of S_sep, so no zero column survives. -/
def S_matchedMat (m : SepMethod) (S Ssep A : List (List ℚ)) (k : ℕ) :
    List (List ℚ) :=
  (List.range k).map (matchedCol m S Ssep A k)

/-- Result record for the deterministic tail of separate: the returned
S_sep.T (component-major), S_matched.T (component-major) and A_sep. -/
structure SepOutput where
  S_sep : List (List ℚ)
  S_matched : List (List ℚ)
  A_sep : List (List ℚ)
deriving DecidableEq

/-- The deterministic matching stage of separate (lines 206-249 of
neuropil.py), taking the factorization output as input: Ssep is the
component matrix in component-major layout (the transpose of the array
produced by fit_transform, which is exactly the S_sep the function
returns), A is the mixing matrix with one row per region. n_components is
the number of separated components, Ssep.length. -/
def separateMatch (m : SepMethod) (S Ssep A : List (List ℚ)) : SepOutput :=
  ⟨Ssep, S_matchedMat m S Ssep A Ssep.length, A⟩

/-- Sign function on the rationals, used only to state the specification
wording of claim C1. -/
def sgn (x : ℚ) : ℚ := if 0 < x then 1 else if x < 0 then -1 else 0

/-- Modelled from the wording of the specification (section 4.1), for
comparison against matchedCol: the matched trace rebuilt as
sign(primary-row weight) times the raw component values, with the same
re-centering split between ica and the nmf variants. -/
def specMatchedCol (m : SepMethod) (S Ssep A : List (List ℚ)) (k j : ℕ) :
    List ℚ :=
  let c := (order A k).getD j 0
  let s_ := (Ssep.getD c []).map (fun x => sgn (entry A 0 c) * x)
  match m with
  | .ica => s_.map (fun x => x + listMean S.headI)
  | .nmf => s_.map (fun x => x + (listMean S.headI - listMean s_))
  | .nmf_sklearn => s_.map (fun x => x + (listMean S.headI - listMean s_))

/-- The specification-worded S_matched matrix (see specMatchedCol). -/
def specS_matchedMat (m : SepMethod) (S Ssep A : List (List ℚ)) (k : ℕ) :
    List (List ℚ) :=
  (List.range k).map (specMatchedCol m S Ssep A k)

/-- Two row-major matrices have the same shape when their row counts agree
and corresponding rows have the same length. -/
def sameShape (M N : List (List ℚ)) : Prop :=
  M.map List.length = N.map List.length

/-- Row permutation of a row-major matrix: sigma lists, for each output
row, the index of the input row it takes. A permutation of the regions of
the trace matrix is permL sigma S for sigma a permutation of the row
indices, and the matching primary-fixed permutation of the mixing matrix
rows is permL sigma A. -/
def permL (sigma : List ℕ) (M : List (List ℚ)) : List (List ℚ) :=
  sigma.map (fun i => M.getD i [])

/-- Embedding of the retry loops of separate (the ica loop at lines
105-134 and the nmf_sklearn loop at lines 139-167 of neuropil.py). The
oracle iter gives the iteration count the library fit reports when run
from a given random state with the fixed budget and tolerance; reseed
gives the fresh random state drawn by rand.randint after the failed
attempt with the given loop index. The arguments are the current random
state, the current attempt index, and the number of tries remaining; the
result is (number of fits performed, final iteration count, final random
state). An attempt converges when its count is strictly below thresh
(thresh is maxiter for ica and maxiter - 1 for nmf_sklearn); a failed
attempt is reseeded and repeated only while tries remain. With zero tries
the Python loop body never runs and the code would crash referencing the
unbound fit object, so the fuel-zero branch is junk and every theorem
assumes at least one try. -/
def fitLoop (iter reseed : ℕ → ℕ) (thresh : ℕ) :
    ℕ → ℕ → ℕ → ℕ × ℕ × ℕ
  | state, i, 0 => (i, 0, state)
  | state, i, fuel + 1 =>
    if iter state < thresh then (i + 1, iter state, state)
    else if fuel = 0 then (i + 1, iter state, state)
    else fitLoop iter reseed thresh (reseed i) (i + 1) fuel

/-- The sequence of random states used by the retry loop: the caller seed
first, then the fresh draw made after failed attempt m. -/
def stSeq (state0 : ℕ) (reseed : ℕ → ℕ) : ℕ → ℕ
  | 0 => state0
  | m + 1 => reseed m

/-- The ica retry loop of separate, started from the caller seed with
attempt index 0 and maxtries tries. -/
def icaRun (iter reseed : ℕ → ℕ) (maxiter maxtries state0 : ℕ) : ℕ × ℕ × ℕ :=
  fitLoop iter reseed maxiter state0 0 maxtries

/-- Convergence metadata assembled at lines 233-248 of neuropil.py. A none
in random_state or iterations or converged models the literal string
value written there instead of a number or boolean (the code stores the
placeholder text for both nmf variants). -/
structure ConvMeta where
  random_state : Option ℕ
  iterations : Option ℕ
  converged : Option Bool
deriving DecidableEq

/-- Attempt count and convergence metadata of the factorization stage of
separate, per method. nimfaIter is the iteration count reported by the
single nimfa fit (the nmf branch at lines 171-200 performs exactly one
attempt, with no retry loop); the two sklearn methods run fitLoop with
their respective thresholds. -/
def sepRun (m : SepMethod) (iter reseed : ℕ → ℕ) (nimfaIter : ℕ)
    (maxiter maxtries state0 : ℕ) : ℕ × ConvMeta :=
  match m with
  | .ica =>
    let r := fitLoop iter reseed maxiter state0 0 maxtries
    (r.1, ⟨some r.2.2, some r.2.1, some (decide ¬r.2.1 = maxiter)⟩)
  | .nmf =>
    (1, ⟨none, some nimfaIter, some (decide ¬nimfaIter = maxiter)⟩)
  | .nmf_sklearn =>
    let r := fitLoop iter reseed (maxiter - 1) state0 0 maxtries
    (r.1, ⟨none, none, none⟩)

/-- Covariance of two equal-length lists, normalized by the length (the
normalization cancels in the correlation, so matching np.cov exactly on
this point is immaterial). -/
def covList (x y : List ℚ) : ℚ :=
  listMean (x.zipWith (fun a b => a * b) y) - listMean x * listMean y

/-- Square of the Pearson correlation coefficient np.corrcoef(x, y)[0, 1].
The objective mincorr of subtract_pil is np.sqrt(corr ** 2) = |corr|; the
embedding keeps the square, of which the code objective is the monotone
square root, since the minimizer below is an abstract oracle constrained
only by the search bounds. -/
def corrSq (x y : List ℚ) : ℚ :=
  covList x y ^ 2 / (covList x x * covList y y)

/-- The objective function mincorr built inside subtract_pil: the
(squared, see corrSq) correlation between sig - a * pil and pil. -/
def mincorr (sig pil : List ℚ) (a : ℚ) : ℚ :=
  corrSq (sig.zipWith (fun s p => s - a * p) pil) pil

/-- Embedding of fissa.neuropil.subtract_pil. The bounded scalar
minimization scipy.optimize.minimize_scalar(..., bounds, method bounded)
is an external collaborator passed in as the oracle argmin (objective,
lower bound, upper bound to gain); the documented contract that it
returns a point inside the bounds is a hypothesis of the theorems. The
corrected signal is sig - a * pil + np.mean(a * pil). -/
def subtract_pil (argmin : (ℚ → ℚ) → ℚ → ℚ → ℚ) (sig pil : List ℚ)
    (lower_bound upper_bound : ℚ) : List ℚ × ℚ :=
  let a := argmin (mincorr sig pil) lower_bound upper_bound
  ((sig.zipWith (fun s p => s - a * p) pil).map
      (fun x => x + listMean (pil.map (fun p => a * p))), a)

/-- Column 0 of a trace matrix stored time-major (one row per time point,
one column per region), the slice S[i][:, 0] taken by subtract_dict. -/
def col0 (M : List (List ℚ)) : List ℚ := M.map (fun row => row.getD 0 0)

/-- Row-wise mean of the non-primary columns, np.mean(S[i][:, 1:], axis=1)
as taken by subtract_dict. -/
def npilEst (M : List (List ℚ)) : List ℚ :=
  M.map (fun row => listMean row.tail)

/-- Embedding of fissa.neuropil.subtract_dict: for every index from
n_noncell to len(S) - 1 it stores the subtract_pil result for that trace
matrix, with the default bounds 0 and 3/2; the two dictionaries are
embedded as association lists built in index order. -/
def subtract_dict (argmin : (ℚ → ℚ) → ℚ → ℚ → ℚ)
    (S : List (List (List ℚ))) (n_noncell : ℕ) :
    List (ℕ × List ℚ) × List (ℕ × ℚ) :=
  let idx := List.range' n_noncell (S.length - n_noncell)
  (idx.map (fun i =>
      (i, (subtract_pil argmin (col0 (S.getD i [])) (npilEst (S.getD i []))
        0 (3 / 2)).1)),
   idx.map (fun i =>
      (i, (subtract_pil argmin (col0 (S.getD i [])) (npilEst (S.getD i []))
        0 (3 / 2)).2)))

/-- ROI input to rois2masks after the string case (which goes through the
external reader roitools.readrois and is out of scope): either a value
that is not a Sequence, or a sequence of elements of which only the numpy
shapes matter to the dispatch. -/
inductive RoiInput
  | notSeq
  | seq (shapes : List (List ℕ))
deriving DecidableEq

/-- Outcome of the rois2masks dispatch: rasterize as polygons through
roitools.getmasks, return the input unchanged as masks, or raise. The
three error constructors record the Python exception class raised. -/
inductive RoiResult
  | polygons
  | masks
  | typeError
  | valueError
  | indexError
deriving DecidableEq

/-- Embedding of the shared dispatch of DataHandlerTifffile.rois2masks and
DataHandlerPillow.rois2masks (lines 184-204 and 314-334 of extraction.py;
the two bodies are identical once the frame shape has been read from the
data object). A non-sequence raises TypeError; otherwise the code indexes
np.shape(rois[0])[1], which raises IndexError when the sequence is empty
or its first element has fewer than two axes; a first element whose
second or first dimension is 2 selects the polygon branch; a first
element whose shape equals the frame shape is returned as masks; anything
else raises ValueError. -/
def rois2masks (rois : RoiInput) (frameShape : List ℕ) : RoiResult :=
  match rois with
  | .notSeq => .typeError
  | .seq [] => .indexError
  | .seq ((a :: b :: rest) :: _) =>
    if b = 2 ∨ a = 2 then .polygons
    else if a :: b :: rest = frameShape then .masks
    else .valueError
  | .seq (_ :: _) => .indexError

/-- Pixels of a flattened frame selected by a boolean mask, in position
order, matching numpy boolean indexing. -/
def maskPixels (frame : List ℚ) (mask : List Bool) : List ℚ :=
  ((frame.zip mask).filter (fun p => p.2)).map Prod.fst

/-- Embedding of DataHandlerTifffile.extracttraces: the movie is a list of
flattened frames, and row i of the output is the per-frame mean over the
pixels of mask i, data[:, masks[i]].mean(axis=1). -/
def extracttracesTifffile (data : List (List ℚ)) (masks : List (List Bool)) :
    List (List ℚ) :=
  masks.map (fun m => data.map (fun frame => listMean (maskPixels frame m)))

/-- Embedding of DataHandlerPillow.extracttraces: the output array of
shape (len(masks), n_frames) is filled entry by entry, frame-by-frame,
with out[i, f] = np.mean(curframe[masks[i]]); as a pure value that is the
row-major table of those entries. -/
def extracttracesPillow (data : List (List ℚ)) (masks : List (List Bool)) :
    List (List ℚ) :=
  (List.range masks.length).map (fun i =>
    (List.range data.length).map (fun f =>
      listMean (maskPixels (data.getD f []) (masks.getD i []))))

/-- Modelled from the spec: fissa.core.Experiment and its save_prep method
are not under src (only the tests reference them). Per specification
section 4.3, the explicit save operation resolves an explicit destination
first, otherwise a path derived from the configured cache directory, and
fails with ValueError when neither exists. The result is the resolved
destination path. -/
def save_prep (cacheDir destination : Option String) :
    Except String String :=
  match destination with
  | some d => .ok d
  | none =>
    match cacheDir with
    | some f => .ok (f ++ "/prepared.npz")
    | none => .error "ValueError"

/-- Modelled from the spec: fissa.core.Experiment and its save_separated
method are not under src (only the tests reference them). Same resolution
rule as save_prep, with the separation snapshot name. -/
def save_separated (cacheDir destination : Option String) :
    Except String String :=
  match destination with
  | some d => .ok d
  | none =>
    match cacheDir with
    | some f => .ok (f ++ "/separated.npz")
    | none => .error "ValueError"

/-! Helper lemmas shared by the claim theorems. -/

/-- Indexing a mapped range: entry j of (range k).map f is f j. -/
theorem getD_map_range {α : Type} (f : ℕ → α) (d : α) {k j : ℕ} (hj : j < k) :
    ((List.range k).map f).getD j d = f j := by
  have hl : j < ((List.range k).map f).length := by simpa using hj
  rw [List.getD_eq_getElem _ _ hl]
  simp

/-- Reading every index of a list through getD reproduces the list. -/
theorem map_getD_range {α β : Type} (l : List α) (d : α) (g : α → β) :
    (List.range l.length).map (fun i => g (l.getD i d)) = l.map g := by
  apply List.ext_getElem (by simp)
  intro i h1 h2
  have hi : i < l.length := by simpa using h2
  simp only [List.getElem_map, List.getElem_range]
  rw [List.getD_eq_getElem _ _ hi]

/-- Sum of a list of nonnegative rationals is zero only when every element
is zero. -/
theorem sum_eq_zero_of_nonneg (l : List ℚ) (h0 : ∀ x ∈ l, 0 ≤ x)
    (h : l.sum = 0) : ∀ x ∈ l, x = 0 := by
  induction l with
  | nil => simp
  | cons a t ih =>
    have ha : 0 ≤ a := h0 a (by simp)
    have ht : 0 ≤ t.sum :=
      List.sum_nonneg (fun x hx => h0 x (List.mem_cons_of_mem _ hx))
    have hsum : a + t.sum = 0 := by simpa using h
    intro x hx
    rcases List.mem_cons.mp hx with rfl | hx
    · linarith
    · exact ih (fun y hy => h0 y (List.mem_cons_of_mem _ hy)) (by linarith) x hx

/-- Shifting every element of a nonempty list shifts its mean. -/
theorem listMean_map_add (l : List ℚ) (c : ℚ) (h : l ≠ []) :
    listMean (l.map (fun x => x + c)) = listMean l + c := by
  have hs : (l.map (fun x => x + c)).sum = l.sum + l.length * c := by
    induction l with
    | nil => simp
    | cons a t ih => simp [ih]; ring
  have hn : (l.length : ℚ) ≠ 0 :=
    Nat.cast_ne_zero.mpr (fun h0 => h (List.length_eq_zero.mp h0))
  unfold listMean
  rw [List.length_map, hs, add_div, mul_comm, mul_div_assoc, div_self hn,
    mul_one]

/-- Scaling every element of a list scales its mean. -/
theorem listMean_map_mul (l : List ℚ) (c : ℚ) :
    listMean (l.map (fun x => c * x)) = c * listMean l := by
  have hs : (l.map (fun x => c * x)).sum = c * l.sum := by
    induction l with
    | nil => simp
    | cons a t ih => simp [ih]; ring
  unfold listMean
  rw [hs, List.length_map, mul_div_assoc]

/-- The argsort of the scores is a permutation of the component indices. -/
theorem order_perm (A : List (List ℚ)) (k : ℕ) :
    (order A k).Perm (List.range k) := by
  unfold order argsortDesc
  exact (List.reverse_perm _).trans (List.perm_insertionSort _ _)

/-- The argsort has one entry per component. -/
theorem order_length (A : List (List ℚ)) (k : ℕ) :
    (order A k).length = k := by
  simpa using (order_perm A k).length_eq

/-- Every entry of the argsort is a valid component index. -/
theorem order_getD_lt (A : List (List ℚ)) {k j : ℕ} (hj : j < k) :
    (order A k).getD j 0 < k := by
  have hlen : j < (order A k).length := by rw [order_length]; exact hj
  have hmem : (order A k).getD j 0 ∈ order A k := by
    rw [List.getD_eq_getElem _ _ hlen]
    exact List.getElem_mem _
  simpa using (order_perm A k).mem_iff.mp hmem

/-- The argsort lists the component indices in order of descending score. -/
theorem order_sorted (A : List (List ℚ)) (k : ℕ) :
    (order A k).Pairwise (fun i j => scores A j ≤ scores A i) := by
  unfold order argsortDesc
  rw [List.pairwise_reverse]
  haveI : IsTotal ℕ (fun i j => scores A i ≤ scores A j) :=
    ⟨fun a b => le_total (scores A a) (scores A b)⟩
  haveI : IsTrans ℕ (fun i j => scores A i ≤ scores A j) :=
    ⟨fun _ _ _ hab hbc => le_trans hab hbc⟩
  exact List.sorted_insertionSort _ _

/-- With a single component the argsort is the single index 0, whatever
the scores are. -/
theorem order_one (A : List (List ℚ)) : order A 1 = [0] := by
  have h := order_perm A 1
  rw [show List.range 1 = [0] from rfl] at h
  exact List.perm_singleton.mp h

/-- Unfolding of matchedCol for the ica method. -/
theorem matchedCol_ica (S Ssep A : List (List ℚ)) (k j : ℕ) :
    matchedCol .ica S Ssep A k j
      = ((Ssep.getD ((order A k).getD j 0) []).map
          (fun x => entry A 0 ((order A k).getD j 0) * x)).map
          (fun x => x + listMean S.headI) := rfl

/-- Unfolding of matchedCol for the two nmf methods. -/
theorem matchedCol_nmf (m : SepMethod) (hm : m ≠ .ica)
    (S Ssep A : List (List ℚ)) (k j : ℕ) :
    matchedCol m S Ssep A k j
      = ((Ssep.getD ((order A k).getD j 0) []).map
          (fun x => entry A 0 ((order A k).getD j 0) * x)).map
          (fun x => x + (listMean S.headI
            - listMean ((Ssep.getD ((order A k).getD j 0) []).map
                (fun x => entry A 0 ((order A k).getD j 0) * x)))) := by
  cases m with
  | ica => exact absurd rfl hm
  | nmf => rfl
  | nmf_sklearn => rfl

/-- Every variant of matchedCol has the length of the raw component it is
built from. -/
theorem matchedCol_length (m : SepMethod) (S Ssep A : List (List ℚ))
    (k j : ℕ) :
    (matchedCol m S Ssep A k j).length
      = (Ssep.getD ((order A k).getD j 0) []).length := by
  cases m <;> simp [matchedCol]

/-- Re-basing a nonempty list so that its mean becomes t. -/
theorem listMean_recenter (l : List ℚ) (t : ℚ) (h : l ≠ []) :
    listMean (l.map (fun x => x + (t - listMean l))) = t := by
  rw [listMean_map_add l _ h]
  ring

/-! Claim theorems. -/

/-- C9: constructing an experiment without a cache directory and invoking
either explicit save operation without a destination fails with
ValueError. -/
theorem saveC9_undefined :
    save_prep none none = .error "ValueError" ∧
    save_separated none none = .error "ValueError" :=
  ⟨rfl, rfl⟩

/-- C8: for every movie and list of masks, the whole-movie adapter and the
frame-streamed adapter produce identical trace matrices, shaped one row
per mask and one column per frame. -/
theorem extracttracesC8_equiv (data : List (List ℚ))
    (masks : List (List Bool)) :
    extracttracesPillow data masks = extracttracesTifffile data masks ∧
    (extracttracesTifffile data masks).length = masks.length ∧
    ∀ row ∈ extracttracesTifffile data masks, row.length = data.length := by
  refine ⟨?_, by simp [extracttracesTifffile], ?_⟩
  · unfold extracttracesPillow extracttracesTifffile
    have h1 : ∀ m : List Bool,
        (List.range data.length).map
            (fun f => listMean (maskPixels (data.getD f []) m)) =
          data.map (fun frame => listMean (maskPixels frame m)) :=
      fun m => map_getD_range data [] (fun frame => listMean (maskPixels frame m))
    simp only [h1]
    exact map_getD_range masks []
      (fun m => data.map (fun frame => listMean (maskPixels frame m)))
  · intro row hrow
    simp only [extracttracesTifffile, List.mem_map] at hrow
    obtain ⟨m, _, rfl⟩ := hrow
    simp

/-- C6 counterexample: a first ROI element of shape (5,) has an
unfamiliar shape that is neither polygon-like nor equal to the frame
shape (3, 4), yet the dispatch raises IndexError, not the TypeError or
ValueError the claim allows; and a first element of shape (7, 2, 5),
also an unfamiliar shape, is silently rasterized as polygons instead of
raising. -/
theorem rois2masksC6_counterexample :
    rois2masks (.seq [[5]]) [3, 4] ≠ .typeError ∧
    rois2masks (.seq [[5]]) [3, 4] ≠ .valueError ∧
    rois2masks (.seq [[5]]) [3, 4] = .indexError ∧
    rois2masks (.seq [[7, 2, 5]]) [3, 4] = .polygons := by
  refine ⟨?_, ?_, rfl, rfl⟩ <;> decide

/-- C6 amended: a non-sequence input raises TypeError; a first element
whose shape has second or first entry 2 (in particular any N-by-2 or
2-by-N polygon) is rasterized as polygons; otherwise a first element
whose shape equals the frame shape is returned as masks; any other shape
with at least two axes raises ValueError; an empty sequence or a first
element with fewer than two axes raises IndexError. -/
theorem rois2masksC6_dispatch (frameShape : List ℕ) (a b : ℕ)
    (rest : List ℕ) (shapes : List (List ℕ)) :
    rois2masks .notSeq frameShape = .typeError ∧
    (b = 2 ∨ a = 2 →
      rois2masks (.seq ((a :: b :: rest) :: shapes)) frameShape = .polygons) ∧
    (¬(b = 2 ∨ a = 2) → a :: b :: rest = frameShape →
      rois2masks (.seq ((a :: b :: rest) :: shapes)) frameShape = .masks) ∧
    (¬(b = 2 ∨ a = 2) → a :: b :: rest ≠ frameShape →
      rois2masks (.seq ((a :: b :: rest) :: shapes)) frameShape
        = .valueError) ∧
    rois2masks (.seq ([] :: shapes)) frameShape = .indexError ∧
    rois2masks (.seq ([a] :: shapes)) frameShape = .indexError ∧
    rois2masks (.seq []) frameShape = .indexError := by
  refine ⟨rfl, ?_, ?_, ?_, rfl, rfl, rfl⟩
  · intro h
    simp [rois2masks, h]
  · intro h1 h2
    simp [rois2masks, h1, h2]
  · intro h1 h2
    simp [rois2masks, h1, h2]

/-- C6 witness: the dispatch cases of the amended claim at concrete
inputs. -/
theorem rois2masksC6_dispatch_witness :
    rois2masks (.seq [[9, 2]]) [3, 4] = .polygons ∧
    rois2masks (.seq [[3, 4]]) [3, 4] = .masks ∧
    rois2masks (.seq [[5, 6]]) [3, 4] = .valueError :=
  ⟨(rois2masksC6_dispatch [3, 4] 9 2 [] []).2.1 (Or.inl rfl),
   (rois2masksC6_dispatch [3, 4] 3 4 [] []).2.2.1 (by decide) rfl,
   (rois2masksC6_dispatch [3, 4] 5 6 [] []).2.2.2.1 (by decide) (by decide)⟩

/-- C7: in the component-matching step, a column of the absolute mixing
matrix whose sum is zero is left all-zero, and every other column is
normalized so that its entries over the regions sum to one; the division
is therefore only performed with a nonzero denominator. -/
theorem normalizeC7 (A : List (List ℚ)) (j : ℕ) :
    (colAbsSum A j = 0 → ∀ i, normEntry A i j = 0) ∧
    (colAbsSum A j ≠ 0 →
      ((List.range A.length).map (fun i => normEntry A i j)).sum = 1) := by
  constructor
  · intro h i
    have hall : ∀ x ∈ A.map (fun row => |row.getD j 0|), x = 0 := by
      refine sum_eq_zero_of_nonneg _ ?_ h
      intro x hx
      obtain ⟨row, _, rfl⟩ := List.mem_map.mp hx
      exact abs_nonneg _
    unfold normEntry
    rw [if_neg (not_not_intro h)]
    by_cases hi : i < A.length
    · refine hall _ (List.mem_map.mpr ⟨A.getD i [], ?_, rfl⟩)
      rw [List.getD_eq_getElem _ _ hi]
      exact List.getElem_mem _
    · have hd : A.getD i [] = [] :=
        List.getD_eq_default _ _ (le_of_not_lt hi)
      unfold entry
      rw [hd]
      simp
  · intro h
    have hsum : ((List.range A.length).map (fun i => |entry A i j|)).sum
        = colAbsSum A j := by
      unfold colAbsSum entry
      exact congrArg List.sum
        (map_getD_range A [] (fun row => |row.getD j 0|))
    unfold normEntry
    simp only [if_pos h]
    have hdiv : (fun i => |entry A i j| / colAbsSum A j)
        = fun i => |entry A i j| * (colAbsSum A j)⁻¹ :=
      funext (fun i => div_eq_mul_inv _ _)
    rw [hdiv, List.sum_map_mul_right, hsum, mul_inv_cancel₀ h]

/-- C7 witness: in the matrix with rows (0, 3) and (0, 4), the zero
column stays zero and the nonzero column is normalized to sum to one. -/
theorem normalizeC7_witness :
    normEntry [[0, 3], [0, 4]] 1 0 = 0 ∧
    ((List.range ([[0, 3], [0, 4]] : List (List ℚ)).length).map
      (fun i => normEntry [[0, 3], [0, 4]] i 1)).sum = 1 :=
  ⟨(normalizeC7 [[0, 3], [0, 4]] 0).1 (by norm_num [colAbsSum]) 1,
   (normalizeC7 [[0, 3], [0, 4]] 1).2 (by norm_num [colAbsSum])⟩

/-- C1 counterexample: with the ica method, the raw trace matrix with one
all-zero primary row, one component equal to (1, 0) over time and
primary-row mixing weight 2, the code builds the matched trace (2, 0)
from the weight itself, while the claimed sign(weight) scaling would give
(1, 0): the two matrices differ. -/
theorem sepC1_counterexample :
    S_matchedMat .ica [[0, 0]] [[1, 0]] [[2]] 1
      ≠ specS_matchedMat .ica [[0, 0]] [[1, 0]] [[2]] 1 := by
  unfold S_matchedMat specS_matchedMat
  simp [matchedCol, specMatchedCol, order_one, entry, listMean, sgn]

/-- C1 amended: the j-th column of S_matched is built from the j-th
highest-scoring raw component (the component order is a permutation of
the component indices sorted by descending primary score) as the
primary-row mixing weight itself (not merely its sign) times the raw
component values; for ica the raw mean of the primary signal is added
directly, while for the two nmf methods the mean of the weighted
component is first removed, so that for a nonempty component the matched
column's mean equals the primary signal's raw mean. -/
theorem sepC1_matched_formula (m : SepMethod) (S Ssep A : List (List ℚ))
    (j : ℕ) (hj : j < Ssep.length) :
    ((order A Ssep.length).Perm (List.range Ssep.length)) ∧
    ((order A Ssep.length).Pairwise
      (fun i i' => scores A i' ≤ scores A i)) ∧
    (m = .ica →
      (separateMatch m S Ssep A).S_matched.getD j []
        = ((Ssep.getD ((order A Ssep.length).getD j 0) []).map
            (fun x => entry A 0 ((order A Ssep.length).getD j 0) * x)).map
            (fun x => x + listMean S.headI)) ∧
    (m ≠ .ica →
      (separateMatch m S Ssep A).S_matched.getD j []
        = ((Ssep.getD ((order A Ssep.length).getD j 0) []).map
            (fun x => entry A 0 ((order A Ssep.length).getD j 0) * x)).map
            (fun x => x + (listMean S.headI
              - listMean ((Ssep.getD ((order A Ssep.length).getD j 0) []).map
                  (fun x =>
                    entry A 0 ((order A Ssep.length).getD j 0) * x))))) ∧
    (m ≠ .ica → Ssep.getD ((order A Ssep.length).getD j 0) [] ≠ [] →
      listMean ((separateMatch m S Ssep A).S_matched.getD j [])
        = listMean S.headI) := by
  have hcol : (separateMatch m S Ssep A).S_matched.getD j []
      = matchedCol m S Ssep A Ssep.length j := by
    show (S_matchedMat m S Ssep A Ssep.length).getD j []
      = matchedCol m S Ssep A Ssep.length j
    unfold S_matchedMat
    exact getD_map_range _ _ hj
  refine ⟨order_perm A _, order_sorted A _, ?_, ?_, ?_⟩
  · rintro rfl
    rw [hcol, matchedCol_ica]
  · intro hm
    rw [hcol, matchedCol_nmf m hm]
  · intro hm hraw
    rw [hcol, matchedCol_nmf m hm]
    apply listMean_recenter
    intro hnil
    exact hraw (List.map_eq_nil_iff.mp hnil)

/-- C1 witness: for the nmf method on a concrete 1-region, 1-component
input, the matched column's mean equals the primary raw mean. -/
theorem sepC1_matched_formula_witness :
    listMean ((separateMatch .nmf [[1, 2]] [[3, 5]] [[2]]).S_matched.getD 0 [])
      = listMean ([[1, 2]] : List (List ℚ)).headI :=
  (sepC1_matched_formula .nmf [[1, 2]] [[3, 5]] [[2]] 0
      (by norm_num)).2.2.2.2 (by decide)
    (by rw [show ([[3, 5]] : List (List ℚ)).length = 1 from rfl, order_one]
        decide)

/-- C2 counterexample: for a 2-region, 3-frame trace matrix and a single
component, the returned S_matched (shape 1 by 3) does not have the shape
of S restricted to its first n_components = 1 columns (shape 2 by 1). -/
theorem sepC2_counterexample :
    ¬ sameShape
      (separateMatch .ica [[1, 2, 3], [4, 5, 6]] [[1, 0, 0]]
        [[1], [1]]).S_matched
      (([[1, 2, 3], [4, 5, 6]] : List (List ℚ)).map (List.take 1)) := by
  unfold sameShape separateMatch S_matchedMat
  rw [show List.range ([[1, 0, 0]] : List (List ℚ)).length = [0] from rfl]
  simp [matchedCol, order_one, Function.comp]

/-- C2 amended: for a trace matrix S whose rows (one per region) all have
length t, a component matrix with n_components rows of length t over
time, n_components at most the number of regions, and a mixing matrix
with one row per region, separate returns S_sep and S_matched with the
same shape as S restricted to its first n_components rows (that is,
n_components by t), and A_sep with exactly one row per input region. -/
theorem sepC2_shapes (m : SepMethod) (S Ssep A : List (List ℚ)) (t : ℕ)
    (hS : ∀ row ∈ S, row.length = t)
    (hSsep : ∀ row ∈ Ssep, row.length = t)
    (hk : Ssep.length ≤ S.length)
    (hA : A.length = S.length) :
    sameShape (separateMatch m S Ssep A).S_sep (S.take Ssep.length) ∧
    sameShape (separateMatch m S Ssep A).S_matched (S.take Ssep.length) ∧
    (separateMatch m S Ssep A).A_sep.length = S.length := by
  have htake : (S.take Ssep.length).map List.length
      = List.replicate Ssep.length t := by
    apply List.eq_replicate_iff.mpr
    constructor
    · rw [List.length_map, List.length_take]
      exact min_eq_left hk
    · intro b hb
      obtain ⟨row, hrow, rfl⟩ := List.mem_map.mp hb
      exact hS row (List.take_subset _ _ hrow)
  refine ⟨?_, ?_, hA⟩
  · unfold sameShape
    rw [htake]
    apply List.eq_replicate_iff.mpr
    refine ⟨by simp [separateMatch], ?_⟩
    intro b hb
    obtain ⟨row, hrow, rfl⟩ := List.mem_map.mp hb
    exact hSsep row hrow
  · unfold sameShape
    rw [htake]
    apply List.eq_replicate_iff.mpr
    constructor
    · simp [separateMatch, S_matchedMat]
    · intro b hb
      simp only [separateMatch, S_matchedMat, List.map_map, List.mem_map,
        List.mem_range, Function.comp] at hb
      obtain ⟨jj, hjj, rfl⟩ := hb
      rw [matchedCol_length]
      have hc : (order A Ssep.length).getD jj 0 < Ssep.length :=
        order_getD_lt A hjj
      rw [List.getD_eq_getElem _ _ hc]
      exact hSsep _ (List.getElem_mem _)

/-- C2 witness: the amended shape statement at a concrete 2-region,
3-frame input with one component. -/
theorem sepC2_shapes_witness :
    sameShape
      (separateMatch .nmf [[1, 2, 3], [4, 5, 6]] [[7, 8, 9]]
        [[1], [2]]).S_matched
      (([[1, 2, 3], [4, 5, 6]] : List (List ℚ)).take
        ([[7, 8, 9]] : List (List ℚ)).length) :=
  (sepC2_shapes .nmf [[1, 2, 3], [4, 5, 6]] [[7, 8, 9]] [[1], [2]] 3
    (by decide) (by decide) (by decide) (by decide)).2.1

/-- Sum of the pointwise subtraction sig - a * pil over equal-length
lists. -/
theorem sum_zipWith_sub (a : ℚ) :
    ∀ (x y : List ℚ), x.length = y.length →
      (x.zipWith (fun s p => s - a * p) y).sum = x.sum - a * y.sum := by
  intro x
  induction x with
  | nil =>
    intro y h
    cases y with
    | nil => simp
    | cons c u => simp at h
  | cons b t ih =>
    intro y h
    cases y with
    | nil => simp at h
    | cons c u =>
      simp only [List.zipWith_cons_cons, List.sum_cons]
      rw [ih u (by simpa using h)]
      ring

/-- C4: subtract_pil returns a gain inside the search bounds (via the
bounded-minimizer contract), that gain is exactly the bounded minimizer
of the correlation objective between sig - a * pil and pil, the corrected
signal is sig - a * pil + mean(a * pil), and its mean equals the mean of
the original signal. -/
theorem subtract_pilC4 (argmin : (ℚ → ℚ) → ℚ → ℚ → ℚ) (sig pil : List ℚ)
    (lb ub : ℚ)
    (hcon : ∀ f lo hi, lo ≤ hi → lo ≤ argmin f lo hi ∧ argmin f lo hi ≤ hi)
    (hb : lb ≤ ub) (hlen : sig.length = pil.length) :
    (lb ≤ (subtract_pil argmin sig pil lb ub).2 ∧
      (subtract_pil argmin sig pil lb ub).2 ≤ ub) ∧
    (subtract_pil argmin sig pil lb ub).2
      = argmin (mincorr sig pil) lb ub ∧
    (subtract_pil argmin sig pil lb ub).1
      = (sig.zipWith
          (fun s p => s - (subtract_pil argmin sig pil lb ub).2 * p)
          pil).map
          (fun x => x + listMean (pil.map
            (fun p => (subtract_pil argmin sig pil lb ub).2 * p))) ∧
    listMean (subtract_pil argmin sig pil lb ub).1 = listMean sig := by
  have ha2 : (subtract_pil argmin sig pil lb ub).2
      = argmin (mincorr sig pil) lb ub := rfl
  refine ⟨by rw [ha2]; exact hcon _ _ _ hb, ha2, rfl, ?_⟩
  by_cases hnil : sig = []
  · subst hnil
    simp [subtract_pil, listMean]
  · have hn : (sig.length : ℚ) ≠ 0 :=
      Nat.cast_ne_zero.mpr (fun h0 => hnil (List.length_eq_zero.mp h0))
    set a := argmin (mincorr sig pil) lb ub with ha
    have h1 : (subtract_pil argmin sig pil lb ub).1
        = (sig.zipWith (fun s p => s - a * p) pil).map
            (fun x => x + listMean (pil.map (fun p => a * p))) := rfl
    rw [h1]
    have hzlen : (sig.zipWith (fun s p => s - a * p) pil).length
        = sig.length := by
      rw [List.length_zipWith, hlen, min_self]
    have hznil : sig.zipWith (fun s p => s - a * p) pil ≠ [] := by
      intro h0
      apply hnil
      apply List.length_eq_zero.mp
      have := congrArg List.length h0
      rw [hzlen] at this
      simpa using this
    rw [listMean_map_add _ _ hznil, listMean_map_mul]
    unfold listMean
    rw [sum_zipWith_sub a sig pil hlen, hzlen, ← hlen]
    field_simp

/-- C4 witness: the bound property and the mean-preservation property at
a concrete input, with the minimizer oracle that returns the lower
bound. -/
theorem subtract_pilC4_witness :
    (0 ≤ (subtract_pil (fun _ lo _ => lo) [1, 2] [3, 4] 0 (3 / 2)).2 ∧
      (subtract_pil (fun _ lo _ => lo) [1, 2] [3, 4] 0 (3 / 2)).2 ≤ 3 / 2) ∧
    listMean (subtract_pil (fun _ lo _ => lo) [1, 2] [3, 4] 0 (3 / 2)).1
      = listMean [1, 2] :=
  ⟨(subtract_pilC4 (fun _ lo _ => lo) [1, 2] [3, 4] 0 (3 / 2)
      (fun _ _ _ h => ⟨le_rfl, h⟩) (by norm_num) rfl).1,
   (subtract_pilC4 (fun _ lo _ => lo) [1, 2] [3, 4] 0 (3 / 2)
      (fun _ _ _ h => ⟨le_rfl, h⟩) (by norm_num) rfl).2.2.2⟩

/-- C10: subtract_dict produces two association lists whose key sequences
are both exactly n_noncell, ..., len(S) - 1 (so the skipped non-cell
indices are absent), and each entry is subtract_pil applied to column 0
of S[i] and the row-wise mean of the remaining columns, with the default
bounds 0 and 3/2. -/
theorem subtract_dictC10 (argmin : (ℚ → ℚ) → ℚ → ℚ → ℚ)
    (S : List (List (List ℚ))) (n_noncell : ℕ)
    (h : n_noncell ≤ S.length) :
    ((subtract_dict argmin S n_noncell).1.map Prod.fst
      = List.range' n_noncell (S.length - n_noncell)) ∧
    ((subtract_dict argmin S n_noncell).2.map Prod.fst
      = List.range' n_noncell (S.length - n_noncell)) ∧
    (∀ i, i ∈ (subtract_dict argmin S n_noncell).1.map Prod.fst ↔
      n_noncell ≤ i ∧ i < S.length) ∧
    (∀ p ∈ (subtract_dict argmin S n_noncell).1,
      p.2 = (subtract_pil argmin (col0 (S.getD p.1 []))
        (npilEst (S.getD p.1 [])) 0 (3 / 2)).1) ∧
    (∀ p ∈ (subtract_dict argmin S n_noncell).2,
      p.2 = (subtract_pil argmin (col0 (S.getD p.1 []))
        (npilEst (S.getD p.1 [])) 0 (3 / 2)).2) := by
  have key1 : (subtract_dict argmin S n_noncell).1.map Prod.fst
      = List.range' n_noncell (S.length - n_noncell) := by
    unfold subtract_dict
    rw [List.map_map]
    exact List.map_id _
  have key2 : (subtract_dict argmin S n_noncell).2.map Prod.fst
      = List.range' n_noncell (S.length - n_noncell) := by
    unfold subtract_dict
    rw [List.map_map]
    exact List.map_id _
  refine ⟨key1, key2, ?_, ?_, ?_⟩
  · intro i
    rw [key1, List.mem_range'_1, Nat.add_sub_cancel' h]
  · intro p hp
    unfold subtract_dict at hp
    obtain ⟨i, _, rfl⟩ := List.mem_map.mp hp
    rfl
  · intro p hp
    unfold subtract_dict at hp
    obtain ⟨i, _, rfl⟩ := List.mem_map.mp hp
    rfl

/-- C10 witness: the key sequence of the first returned mapping at a
concrete two-matrix input with one non-cell index. -/
theorem subtract_dictC10_witness :
    (subtract_dict (fun _ lo _ => lo)
      [[[1, 2], [3, 4]], [[5, 6], [7, 8]]] 1).1.map Prod.fst
      = List.range' 1 1 :=
  (subtract_dictC10 (fun _ lo _ => lo)
    [[[1, 2], [3, 4]], [[5, 6], [7, 8]]] 1 (by decide)).1

/-- Element 0 read through getD is the head. -/
theorem getD_zero_headI (M : List (List ℚ)) : M.getD 0 [] = M.headI := by
  cases M <;> rfl

/-- A permutation fixing index 0 leaves the primary row in place. -/
theorem permL_headI (σ : List ℕ) (M : List (List ℚ))
    (h0 : σ.getD 0 0 = 0) (hσ : σ.Perm (List.range M.length)) :
    (permL σ M).headI = M.headI := by
  cases σ with
  | nil =>
    have hr : List.range M.length = [] := List.Perm.eq_nil hσ.symm
    have hM : M = [] := by
      have hlen := congrArg List.length hr
      simp only [List.length_range, List.length_nil] at hlen
      exact List.length_eq_zero.mp hlen
    subst hM
    rfl
  | cons i tl =>
    have hi : i = 0 := by simpa using h0
    subst hi
    show M.getD 0 [] = M.headI
    exact getD_zero_headI M

/-- Permuting the rows of the mixing matrix leaves every column's
absolute sum unchanged. -/
theorem colAbsSum_permL (σ : List ℕ) (A : List (List ℚ)) (j : ℕ)
    (hσ : σ.Perm (List.range A.length)) :
    colAbsSum (permL σ A) j = colAbsSum A j := by
  have key : (permL σ A).map (fun row => |row.getD j 0|)
      = σ.map (fun i => |(A.getD i []).getD j 0|) := by
    unfold permL
    rw [List.map_map]
    rfl
  unfold colAbsSum
  rw [key, (hσ.map (fun i => |(A.getD i []).getD j 0|)).sum_eq]
  exact congrArg List.sum (map_getD_range A [] (fun row => |row.getD j 0|))

/-- Permuting the mixing-matrix rows with a permutation fixing row 0
leaves every primary-row entry unchanged. -/
theorem entry_permL_zero (σ : List ℕ) (A : List (List ℚ))
    (h0 : σ.getD 0 0 = 0) (hσ : σ.Perm (List.range A.length)) (j : ℕ) :
    entry (permL σ A) 0 j = entry A 0 j := by
  unfold entry
  rw [getD_zero_headI, getD_zero_headI, permL_headI σ A h0 hσ]

/-- The primary scores are invariant under a primary-fixing permutation
of the mixing-matrix rows. -/
theorem scores_permL (σ : List ℕ) (A : List (List ℚ))
    (h0 : σ.getD 0 0 = 0) (hσ : σ.Perm (List.range A.length)) :
    scores (permL σ A) = scores A := by
  funext j
  unfold scores normEntry
  rw [colAbsSum_permL σ A j hσ, entry_permL_zero σ A h0 hσ j]

/-- The component ordering is invariant under a primary-fixing
permutation of the mixing-matrix rows. -/
theorem order_permL (σ : List ℕ) (A : List (List ℚ)) (k : ℕ)
    (h0 : σ.getD 0 0 = 0) (hσ : σ.Perm (List.range A.length)) :
    order (permL σ A) k = order A k := by
  unfold order
  rw [scores_permL σ A h0 hσ]

/-- C5: permuting the non-primary regions of the input (any permutation
of the rows of S and A that fixes row 0, with the factorization output
transforming equivariantly: the components unchanged and the mixing
matrix rows carried along with the regions) leaves the matched primary
component, together with the rest of S_matched, unchanged. -/
theorem sepC5_perm_invariant (m : SepMethod) (S Ssep A : List (List ℚ))
    (σ : List ℕ) (h0 : σ.getD 0 0 = 0)
    (hσ : σ.Perm (List.range S.length)) (hA : A.length = S.length) :
    (separateMatch m (permL σ S) Ssep (permL σ A)).S_matched.headI
      = (separateMatch m S Ssep A).S_matched.headI := by
  have hσA : σ.Perm (List.range A.length) := by rw [hA]; exact hσ
  have hord : order (permL σ A) Ssep.length = order A Ssep.length :=
    order_permL σ A Ssep.length h0 hσA
  have hhead : (permL σ S).headI = S.headI := permL_headI σ S h0 hσ
  have hentry : ∀ c, entry (permL σ A) 0 c = entry A 0 c :=
    fun c => entry_permL_zero σ A h0 hσA c
  have hmat : ∀ j, matchedCol m (permL σ S) Ssep (permL σ A) Ssep.length j
      = matchedCol m S Ssep A Ssep.length j := by
    intro j
    cases m with
    | ica =>
      rw [matchedCol_ica, matchedCol_ica, hord, hhead, hentry]
    | nmf =>
      rw [matchedCol_nmf _ (by decide), matchedCol_nmf _ (by decide),
        hord, hhead, hentry]
    | nmf_sklearn =>
      rw [matchedCol_nmf _ (by decide), matchedCol_nmf _ (by decide),
        hord, hhead, hentry]
  have hfull : S_matchedMat m (permL σ S) Ssep (permL σ A) Ssep.length
      = S_matchedMat m S Ssep A Ssep.length := by
    unfold S_matchedMat
    exact List.map_congr_left (fun j _ => hmat j)
  show (S_matchedMat m (permL σ S) Ssep (permL σ A) Ssep.length).headI
    = (S_matchedMat m S Ssep A Ssep.length).headI
  rw [hfull]

/-- C5 witness: swapping the two neuropil regions of a concrete 3-region
input (carrying the mixing-matrix rows along) leaves the matched primary
trace unchanged. -/
theorem sepC5_perm_invariant_witness :
    (separateMatch .ica (permL [0, 2, 1] [[1, 2], [3, 4], [5, 6]]) [[1, 0]]
      (permL [0, 2, 1] [[1], [2], [3]])).S_matched.headI
      = (separateMatch .ica [[1, 2], [3, 4], [5, 6]] [[1, 0]]
        [[1], [2], [3]]).S_matched.headI :=
  sepC5_perm_invariant .ica [[1, 2], [3, 4], [5, 6]] [[1, 0]]
    [[1], [2], [3]] [0, 2, 1] rfl (by decide) rfl

/-- Behaviour of the retry loop, by induction on the remaining tries:
either some attempt converges (its count is strictly below the
threshold), the loop stops at the first such attempt k having reseeded
after each of the failed attempts before it, and reports attempt count
k + 1 with that attempt's count and state; or every attempt within the
budget fails and the loop reports the full attempt count and the data of
the last attempt. -/
theorem fitLoop_spec (iter reseed : ℕ → ℕ) (thresh state0 : ℕ) :
    ∀ fuel i, 1 ≤ fuel →
    ((∃ k, i ≤ k ∧ k < i + fuel ∧ iter (stSeq state0 reseed k) < thresh ∧
        (∀ m, i ≤ m → m < k → thresh ≤ iter (stSeq state0 reseed m)) ∧
        fitLoop iter reseed thresh (stSeq state0 reseed i) i fuel
          = (k + 1, iter (stSeq state0 reseed k), stSeq state0 reseed k)) ∨
      ((∀ m, i ≤ m → m < i + fuel → thresh ≤ iter (stSeq state0 reseed m)) ∧
        fitLoop iter reseed thresh (stSeq state0 reseed i) i fuel
          = (i + fuel, iter (stSeq state0 reseed (i + fuel - 1)),
            stSeq state0 reseed (i + fuel - 1)))) := by
  intro fuel
  induction fuel with
  | zero => intro i h; exact absurd h (by omega)
  | succ f ih =>
    intro i _
    by_cases hconv : iter (stSeq state0 reseed i) < thresh
    · left
      refine ⟨i, le_rfl, by omega, hconv, by omega, ?_⟩
      simp only [fitLoop, if_pos hconv]
    · by_cases hf : f = 0
      · subst hf
        right
        constructor
        · intro m him hmlt
          have hmi : m = i := by omega
          subst hmi
          exact le_of_not_lt hconv
        · simp only [fitLoop, if_neg hconv]
          simp
      · have hff : 1 ≤ f := by omega
        have step : fitLoop iter reseed thresh (stSeq state0 reseed i) i
            (f + 1) = fitLoop iter reseed thresh
              (stSeq state0 reseed (i + 1)) (i + 1) f := by
          simp only [fitLoop, if_neg hconv, if_neg hf]
          rfl
        rw [step]
        rcases ih (i + 1) hff with ⟨k, hk1, hk2, hk3, hk4, hk5⟩ |
          ⟨hall, heq⟩
        · left
          refine ⟨k, by omega, by omega, hk3, ?_, hk5⟩
          intro m him hmk
          rcases Nat.eq_or_lt_of_le him with rfl | hgt
          · exact le_of_not_lt hconv
          · exact hk4 m (by omega) hmk
        · right
          constructor
          · intro m him hmlt
            rcases Nat.eq_or_lt_of_le him with rfl | hgt
            · exact le_of_not_lt hconv
            · exact hall m (by omega) (by omega)
          · rw [heq]
            have hidx : i + 1 + f = i + (f + 1) := by omega
            rw [hidx]

/-- C3 counterexample: for the nimfa nmf method the claimed retry
behaviour fails: with an attempt that reports exactly maxiter = 5
iterations (so it did not converge) and maxtries = 3 tries remaining,
separate performs only a single factorization attempt instead of
repeating it with a fresh random state. -/
theorem sepC3_counterexample :
    ¬ ∀ (iter reseed : ℕ → ℕ) (ni maxiter maxtries state0 : ℕ),
        2 ≤ maxtries → ni = maxiter →
        2 ≤ (sepRun .nmf iter reseed ni maxiter maxtries state0).1 := by
  intro h
  have h2 := h (fun _ => 5) (fun _ => 0) 5 5 3 0 (by omega) rfl
  simp [sepRun] at h2

/-- C3 amended: for the ica method, separate attempts the factorization
at most maxtries times with the fixed budget; it stops at the first
attempt whose iteration count is strictly below maxiter, having reseeded
the random state after each earlier full-budget attempt (the reseeded
states being the successive random draws in stSeq); if every attempt
reaches maxiter, it stops after exactly maxtries attempts and records
converged = false. The sklearn nmf method runs the same loop but treats
an attempt as converged only when its count is strictly below
maxiter - 1, and stores the not-yet-implemented placeholder, not a
boolean, as its convergence flag. The nimfa nmf method performs exactly
one attempt, with no retries. -/
theorem sepC3_retry_policy (iter reseed : ℕ → ℕ) (nimfaIter : ℕ)
    (maxiter maxtries state0 : ℕ) (h1 : 1 ≤ maxtries) :
    (icaRun iter reseed maxiter maxtries state0).1 ≤ maxtries ∧
    (∀ k, k < maxtries → iter (stSeq state0 reseed k) < maxiter →
      (∀ m, m < k → iter (stSeq state0 reseed m) = maxiter) →
      icaRun iter reseed maxiter maxtries state0
        = (k + 1, iter (stSeq state0 reseed k), stSeq state0 reseed k)) ∧
    ((∀ m, m < maxtries → iter (stSeq state0 reseed m) = maxiter) →
      (sepRun .ica iter reseed nimfaIter maxiter maxtries
          state0).2.converged = some false ∧
      (sepRun .ica iter reseed nimfaIter maxiter maxtries state0).1
        = maxtries) ∧
    (sepRun .nmf iter reseed nimfaIter maxiter maxtries state0).1 = 1 ∧
    (sepRun .nmf_sklearn iter reseed nimfaIter maxiter maxtries
        state0).2.converged = none ∧
    (sepRun .nmf_sklearn iter reseed nimfaIter maxiter maxtries state0).1
      ≤ maxtries := by
  have hica : icaRun iter reseed maxiter maxtries state0
      = fitLoop iter reseed maxiter (stSeq state0 reseed 0) 0 maxtries :=
    rfl
  have hsep1 : (sepRun .ica iter reseed nimfaIter maxiter maxtries
      state0).1 = (fitLoop iter reseed maxiter (stSeq state0 reseed 0) 0
        maxtries).1 := rfl
  have hsepc : (sepRun .ica iter reseed nimfaIter maxiter maxtries
      state0).2.converged
      = some (decide ¬(fitLoop iter reseed maxiter (stSeq state0 reseed 0)
          0 maxtries).2.1 = maxiter) := rfl
  have hsk1 : (sepRun .nmf_sklearn iter reseed nimfaIter maxiter maxtries
      state0).1 = (fitLoop iter reseed (maxiter - 1)
        (stSeq state0 reseed 0) 0 maxtries).1 := rfl
  refine ⟨?_, ?_, ?_, rfl, rfl, ?_⟩
  · rw [hica]
    rcases fitLoop_spec iter reseed maxiter state0 maxtries 0 h1 with
      ⟨k, _, hk2, _, _, hk5⟩ | ⟨_, heq⟩
    · rw [hk5]
      omega
    · rw [heq]
      simp
  · intro k hk hconv hbefore
    rw [hica]
    rcases fitLoop_spec iter reseed maxiter state0 maxtries 0 h1 with
      ⟨k2, _, hk2, hk3, hk4, hk5⟩ | ⟨hall, _⟩
    · have hkk : k2 = k := by
        by_contra hne
        rcases Nat.lt_or_ge k2 k with hlt | hge
        · have := hbefore k2 hlt
          omega
        · have hgt : k < k2 := by omega
          have := hk4 k (by omega) hgt
          omega
      subst hkk
      exact hk5
    · have := hall k (by omega) (by omega)
      omega
  · intro hallm
    rcases fitLoop_spec iter reseed maxiter state0 maxtries 0 h1 with
      ⟨k, _, hk2, hk3, _, _⟩ | ⟨_, heq⟩
    · have := hallm k (by omega)
      omega
    · have hlast : iter (stSeq state0 reseed (0 + maxtries - 1))
          = maxiter := hallm _ (by omega)
      rw [Nat.zero_add] at hlast
      constructor
      · rw [hsepc, heq]
        simp [hlast]
      · rw [hsep1, heq]
        simp
  · rw [hsk1]
    rcases fitLoop_spec iter reseed (maxiter - 1) state0 maxtries 0 h1 with
      ⟨k, _, hk2, _, _, hk5⟩ | ⟨_, heq⟩
    · rw [hk5]
      omega
    · rw [heq]
      simp

/-- C3 witness: the amended retry-policy statement at a concrete
instance: an oracle that always reports 0 iterations against budget 1
with a single allowed try. -/
theorem sepC3_retry_policy_witness :
    (icaRun (fun _ => 0) (fun _ => 0) 1 1 0).1 ≤ 1 ∧
    (sepRun .nmf (fun _ => 0) (fun _ => 0) 0 1 1 0).1 = 1 :=
  ⟨(sepC3_retry_policy (fun _ => 0) (fun _ => 0) 0 1 1 0 le_rfl).1,
   (sepC3_retry_policy (fun _ => 0) (fun _ => 0) 0 1 1 0
     le_rfl).2.2.2.1⟩

end Fissa
